import Mathlib

/-!
Verification of the dependency-list transformer of
`distribution/build.py` (llama-stack-distribution).

Text is shallowly embedded as `List Char`; the Python string operations used
by the source (`str.splitlines`, `str.strip`, `str.split` with and without a
separator and maxsplit, `str.replace(old, new, 1)`, substring membership,
`str.join`, `sorted`, `set`) are modelled character by character, and the
transformer `get_dependencies`, the version check `check_llama_stack_version`
and the writer `generate_containerfile` are translated from the source.
-/

/-- Text, as a list of characters (Python `str`). -/
abbrev Str := List Char

/-- Python whitespace, as used by `str.strip` / `str.split` / `str.rstrip`. -/
def pyIsSpace (c : Char) : Bool :=
  c = ' ' || c = '\t' || c = '\n' || c = '\r' || c = '\x0b' || c = '\x0c' ||
  c = '\x1c' || c = '\x1d' || c = '\x1e' || c = '\x1f' || c = '\x85' ||
  c = '\xa0' || c = '\u1680' || (0x2000 ≤ c.toNat && c.toNat ≤ 0x200a) ||
  c = '\u2028' || c = '\u2029' || c = '\u202f' || c = '\u205f' || c = '\u3000'

/-- Python `str.strip()` with no argument: drop whitespace at both ends. -/
def pyStrip (s : Str) : Str :=
  ((s.dropWhile pyIsSpace).reverse.dropWhile pyIsSpace).reverse

/-- Python `str.rstrip()` with no argument: drop trailing whitespace. -/
def pyRstrip (s : Str) : Str :=
  (s.reverse.dropWhile pyIsSpace).reverse

/-- Line-boundary characters of Python `str.splitlines` (besides `\r\n`). -/
def isLineBreakChar (c : Char) : Bool :=
  c = '\n' || c = '\r' || c = '\x0b' || c = '\x0c' || c = '\x1c' ||
  c = '\x1d' || c = '\x1e' || c = '\x85' || c = '\u2028' || c = '\u2029'

/-- Worker for `pySplitlines`; `acc` holds the current line reversed. -/
def splitlinesAux (acc : Str) : Str → List Str
  | [] => if acc.isEmpty then [] else [acc.reverse]
  | '\r' :: '\n' :: rest => acc.reverse :: splitlinesAux [] rest
  | c :: rest =>
    if isLineBreakChar c then acc.reverse :: splitlinesAux [] rest
    else splitlinesAux (c :: acc) rest

/-- Python `str.splitlines()`: split at line boundaries, `\r\n` counting as
one boundary, with no empty trailing line. -/
def pySplitlines (s : Str) : List Str := splitlinesAux [] s

/-- Split a string at the first occurrence of the character `c`, if any. -/
def breakAtCh (c : Char) : Str → Option (Str × Str)
  | [] => none
  | x :: xs =>
    if x = c then some ([], xs)
    else
      match breakAtCh c xs with
      | none => none
      | some (a, b) => some (x :: a, b)

/-- Python `str.split(c, maxsplit)` for a one-character separator `c`:
at most `n` splits, scanning left to right; empty chunks are kept. -/
def splitChMax (c : Char) : Nat → Str → List Str
  | 0, s => [s]
  | n + 1, s =>
    match breakAtCh c s with
    | none => [s]
    | some (a, b) => a :: splitChMax c n b

/-- Worker for `splitWS`; `acc` holds the current token reversed. -/
def splitWSAux (acc : Str) : Str → List Str
  | [] => if acc.isEmpty then [] else [acc.reverse]
  | c :: rest =>
    if pyIsSpace c then
      if acc.isEmpty then splitWSAux [] rest
      else acc.reverse :: splitWSAux [] rest
    else splitWSAux (c :: acc) rest

/-- Python `str.split()` with no argument: split on whitespace runs,
discarding empty chunks. -/
def splitWS (s : Str) : List Str := splitWSAux [] s

/-- Python `str.replace(old, new, 1)` for nonempty `old`: rewrite the first
occurrence of `old` (if any) to `new`. -/
def replaceFirst (old new : Str) : Str → Str
  | [] => []
  | x :: xs =>
    if old.isPrefixOf (x :: xs) then new ++ (x :: xs).drop old.length
    else x :: replaceFirst old new xs

/-- Python substring membership `needle in hay`. -/
def containsSub (needle : Str) : Str → Bool
  | [] => needle.isEmpty
  | x :: xs => needle.isPrefixOf (x :: xs) || containsSub needle xs

/-- Python `sep.join(parts)`. -/
def joinWith (sep : Str) : List Str → Str
  | [] => []
  | [x] => x
  | x :: y :: rest => x ++ sep ++ joinWith sep (y :: rest)

/-- The distinct elements of a list (Python `set(...)` before sorting);
keeps the rightmost occurrence, which is irrelevant once sorted. -/
def dedupRL : List Str → List Str
  | [] => []
  | x :: xs => if x ∈ dedupRL xs then dedupRL xs else x :: dedupRL xs

/-- Number of occurrences of `a` in a list. -/
def countOcc {α : Type} [DecidableEq α] (a : α) : List α → Nat
  | [] => 0
  | x :: xs => (if x = a then 1 else 0) + countOcc a xs

/-- Python string comparison `a < b`: lexicographic on code points. -/
def strLt : Str → Str → Bool
  | _, [] => false
  | [], _ :: _ => true
  | a :: as, b :: bs =>
    if a.toNat < b.toNat then true
    else if b.toNat < a.toNat then false
    else strLt as bs

/-- Python string comparison `a <= b`. -/
def strLe (a b : Str) : Bool := !(strLt b a)

/-- The order `strLe`, as a relation. -/
def sLE (a b : Str) : Prop := strLe a b = true

instance : DecidableRel sLE :=
  fun a b => inferInstanceAs (Decidable (strLe a b = true))

/-- Python `sorted` on strings: a stable sort by `strLe`. -/
def sortStr (l : List Str) : List Str := List.insertionSort sLE l

/-- Python `sorted(set(payload.split()))` from the source: the distinct
whitespace-separated tokens of the payload, sorted by code point
(so quote characters take part in the comparison). -/
def packagesOf (payload : Str) : List Str := sortStr (dedupRL (splitWS payload))

/-- The four accumulators of the loop in `get_dependencies`
(`standard_deps`, `torch_deps`, `no_deps`, `no_cache`). -/
structure Groups where
  standard_deps : List Str
  torch_deps : List Str
  no_deps : List Str
  no_cache : List Str
deriving DecidableEq

/-- The empty accumulators the loop starts from. -/
def Groups.empty : Groups := ⟨[], [], [], []⟩

/-- The four categories an install line can be routed to. -/
inductive Cat where
  | standard
  | torch
  | nodeps
  | nocache
deriving DecidableEq

/-- Append one rewritten line to the accumulator of its category. -/
def Groups.add (g : Groups) : Cat → Str → Groups
  | .standard, s => { g with standard_deps := g.standard_deps ++ [s] }
  | .torch, s => { g with torch_deps := g.torch_deps ++ [s] }
  | .nodeps, s => { g with no_deps := g.no_deps ++ [s] }
  | .nocache, s => { g with no_cache := g.no_cache ++ [s] }

/-- Read the accumulator of one category. -/
def Groups.get (g : Groups) : Cat → List Str
  | .standard => g.standard_deps
  | .torch => g.torch_deps
  | .nodeps => g.no_deps
  | .nocache => g.no_cache

/-- One iteration of the loop of `get_dependencies`: decide whether the line
matches (`line.strip().startswith("uv pip")`), rewrite it, and name the
category it is appended to; `none` when the line is ignored.  Mirrors
`distribution/build.py` lines 77-102. -/
def route (line : Str) : Option (Cat × Str) :=
  if ("uv pip".data).isPrefixOf (pyStrip line) then
    let parts := splitChMax ' ' 3 (replaceFirst "uv ".data "RUN ".data line)
    if 4 ≤ parts.length then
      let cmd_parts := parts.take 3
      let packages := packagesOf (parts.getD 3 [])
      if containsSub "--index-url".data line then
        some (.torch, joinWith " ".data (cmd_parts ++ [joinWith " ".data packages]))
      else if containsSub "--no-deps".data line then
        some (.nodeps, joinWith " ".data (cmd_parts ++ [joinWith " ".data packages]))
      else if containsSub "--no-cache".data line then
        some (.nocache, joinWith " ".data (cmd_parts ++ [joinWith " ".data packages]))
      else
        some (.standard,
          joinWith " ".data cmd_parts ++ " \\\n    ".data ++
            joinWith " \\\n    ".data packages)
    else
      some (.standard, joinWith " ".data parts)
  else none

/-- The loop body of `get_dependencies`, as a fold step over `Groups`. -/
def processLine (g : Groups) (line : Str) : Groups :=
  match route line with
  | none => g
  | some (c, s) => g.add c s

/-- The transformer `get_dependencies` of `distribution/build.py`, as a
function of the captured stdout of the external listing command: loop over
the lines, then emit the four groups, each sorted, in the fixed order
standard, torch (index-url), no-deps, no-cache, joined with newlines. -/
def get_dependencies (stdout : Str) : Str :=
  let g := (pySplitlines stdout).foldl processLine Groups.empty
  joinWith "\n".data
    (sortStr g.standard_deps ++ sortStr g.torch_deps ++
      sortStr g.no_deps ++ sortStr g.no_cache)

/-- The pinned requirement list `BASE_REQUIREMENTS` of the source. -/
def BASE_REQUIREMENTS : List Str := ["llama-stack==0.2.18".data]

/-- Split a string at the first occurrence of the substring `sep`, if any. -/
def breakAtSub (sep : Str) : Str → Option (Str × Str)
  | [] => none
  | x :: xs =>
    if sep.isPrefixOf (x :: xs) then some ([], (x :: xs).drop sep.length)
    else
      match breakAtSub sep xs with
      | none => none
      | some (a, b) => some (x :: a, b)

/-- Fuelled worker for `pySplitSub`. -/
def splitSubFuel (sep : Str) : Nat → Str → List Str
  | 0, s => [s]
  | n + 1, s =>
    match breakAtSub sep s with
    | none => [s]
    | some (a, b) => a :: splitSubFuel sep n b

/-- Python `str.split(sep)` for a nonempty separator string `sep`:
each split consumes at least one character, so fuel `s.length` suffices. -/
def pySplitSub (sep s : Str) : List Str := splitSubFuel sep s.length s

/-- The `expected_version` extraction of `check_llama_stack_version`: the
first requirement starting with `llama-stack==`, split on `==`, index 1. -/
def expectedVersionOf (reqs : List Str) : Option Str :=
  match reqs.find? (fun r => ("llama-stack==".data).isPrefixOf r) with
  | some r => some ((pySplitSub "==".data r).getD 1 [])
  | none => none

/-- Outcome of the `llama stack --version` subprocess: captured stdout on
success, or a `CalledProcessError` (`check=True`, nonzero exit). -/
inductive RunOutcome where
  | ok (stdout : Str)
  | failed
deriving DecidableEq

/-- Observable result of `check_llama_stack_version`: `sys.exit(code)`,
warn-and-continue, or silent success. -/
inductive CheckResult where
  | exited (code : Nat)
  | warned
  | passed
deriving DecidableEq

/-- The version check of `distribution/build.py` lines 30-60: on subprocess
failure print a warning and continue; on success compare the stripped stdout
with the version pinned in `BASE_REQUIREMENTS` and exit with status 1 on a
mismatch. -/
def check_llama_stack_version (r : RunOutcome) : CheckResult :=
  match r with
  | .failed => .warned
  | .ok out =>
    let installed := pyStrip out
    match expectedVersionOf BASE_REQUIREMENTS with
    | some expected =>
      if expected ≠ [] ∧ installed ≠ expected then .exited 1 else .passed
    | none => .passed

/-- The mode string chosen in `generate_containerfile`: unified wins over
standalone, default full. -/
def modeString (standalone unified : Bool) : Str :=
  if unified then "unified".data
  else if standalone then "standalone".data
  else "full".data

/-- The auto-generation warning banner prepended by `generate_containerfile`. -/
def warningOf (standalone unified : Bool) : Str :=
  ("# WARNING: This file is auto-generated. Do not modify it manually.\n".data ++
   "# Generated by: distribution/build.py --".data) ++
  modeString standalone unified ++ "\n\n".data

/-- Modelled from the spec: the template file `distribution/Containerfile.in`
is not among the sources; per the spec it is a textual document containing
exactly one named substitution placeholder, so it is represented by the text
before and after that placeholder.  `generate_containerfile` then prepends
the warning banner and substitutes the right-stripped dependency block into
the placeholder (source lines 139-148). -/
def generate_containerfile (tmplBefore tmplAfter deps : Str)
    (standalone unified : Bool) : Str :=
  warningOf standalone unified ++ tmplBefore ++ pyRstrip deps ++ tmplAfter

/-- Modelled from the spec: the classification rule, stated as in §4.1 — the
original line is checked, in order, for an index-url flag, a no-deps flag and
a no-cache flag substring, and is Standard when none is present. -/
def specCategory (line : Str) : Cat :=
  if containsSub "--index-url".data line then .torch
  else if containsSub "--no-deps".data line then .nodeps
  else if containsSub "--no-cache".data line then .nocache
  else .standard

/-- The rewritten line the loop appends for category `c` on `line`, if any. -/
def emitOpt (c : Cat) (line : Str) : Option Str :=
  match route line with
  | some (c2, s) => if c2 = c then some s else none
  | none => none

/-- All lines the transformer collects into the group of category `c`,
in input order. -/
def groupLines (c : Cat) (stdout : Str) : List Str :=
  (pySplitlines stdout).filterMap (emitOpt c)

/-! Helper lemmas: `strLt` is a strict total order on code points. -/

theorem char_toNat_inj {a b : Char} (h : a.toNat = b.toNat) : a = b := by
  apply Char.eq_of_val_eq
  exact UInt32.eq_of_val_eq (Fin.ext h)

theorem strLt_irrefl : ∀ s : Str, strLt s s = false
  | [] => rfl
  | c :: cs => by
    simp only [strLt]
    rw [if_neg (Nat.lt_irrefl _), if_neg (Nat.lt_irrefl _)]
    exact strLt_irrefl cs

theorem strLt_asymm : ∀ a b : Str, strLt a b = true → strLt b a = false
  | _, [], h => by simp [strLt] at h
  | [], _ :: _, _ => rfl
  | a :: as, b :: bs, h => by
    simp only [strLt] at h ⊢
    by_cases h1 : a.toNat < b.toNat
    · rw [if_neg (by omega), if_pos h1]
    · rw [if_neg h1] at h
      by_cases h2 : b.toNat < a.toNat
      · rw [if_pos h2] at h
        exact absurd h (by simp)
      · rw [if_neg h2] at h
        rw [if_neg h2, if_neg h1]
        exact strLt_asymm as bs h

theorem strLt_total_eq : ∀ a b : Str, strLt a b = false → strLt b a = false → a = b
  | [], [], _, _ => rfl
  | [], _ :: _, h, _ => by simp [strLt] at h
  | _ :: _, [], _, h => by simp [strLt] at h
  | a :: as, b :: bs, h1, h2 => by
    simp only [strLt] at h1 h2
    by_cases hab : a.toNat < b.toNat
    · rw [if_pos hab] at h1
      exact absurd h1 (by simp)
    · by_cases hba : b.toNat < a.toNat
      · rw [if_pos hba] at h2
        exact absurd h2 (by simp)
      · rw [if_neg hab, if_neg hba] at h1
        rw [if_neg hba, if_neg hab] at h2
        rw [char_toNat_inj (show a.toNat = b.toNat by omega),
          strLt_total_eq as bs h1 h2]

theorem strLt_trans : ∀ a b c : Str, strLt a b = true → strLt b c = true → strLt a c = true
  | _, _, [], _, h2 => by simp [strLt] at h2
  | [], _, _ :: _, _, _ => rfl
  | _ :: _, [], _, h1, _ => by simp [strLt] at h1
  | a :: as, b :: bs, c :: cs, h1, h2 => by
    simp only [strLt] at h1 h2 ⊢
    by_cases hab : a.toNat < b.toNat
    · by_cases hbc : b.toNat < c.toNat
      · rw [if_pos (by omega)]
      · rw [if_neg hbc] at h2
        by_cases hcb : c.toNat < b.toNat
        · rw [if_pos hcb] at h2
          exact absurd h2 (by simp)
        · rw [if_pos (by omega)]
    · rw [if_neg hab] at h1
      by_cases hba : b.toNat < a.toNat
      · rw [if_pos hba] at h1
        exact absurd h1 (by simp)
      · rw [if_neg hba] at h1
        by_cases hbc : b.toNat < c.toNat
        · rw [if_pos (by omega)]
        · rw [if_neg hbc] at h2
          by_cases hcb : c.toNat < b.toNat
          · rw [if_pos hcb] at h2
            exact absurd h2 (by simp)
          · rw [if_neg hcb] at h2
            rw [if_neg (by omega), if_neg (by omega)]
            exact strLt_trans as bs cs h1 h2

theorem sLE_total : ∀ a b : Str, sLE a b ∨ sLE b a := by
  intro a b
  unfold sLE strLe
  by_cases h : strLt b a = true
  · right
    rw [strLt_asymm b a h]
    rfl
  · left
    rw [Bool.not_eq_true] at h
    rw [h]
    rfl

theorem sLE_trans : ∀ a b c : Str, sLE a b → sLE b c → sLE a c := by
  intro a b c h1 h2
  unfold sLE strLe at h1 h2 ⊢
  rw [Bool.not_eq_true'] at h1 h2 ⊢
  by_contra hca
  rw [Bool.not_eq_false] at hca
  by_cases hba : strLt a b = true
  · have := strLt_trans c a b hca hba
    rw [this] at h2
    exact absurd h2 (by simp)
  · rw [Bool.not_eq_true] at hba
    rw [strLt_total_eq a b hba h1] at hca
    rw [hca] at h2
    exact absurd h2 (by simp)

theorem sLE_antisymm : ∀ a b : Str, sLE a b → sLE b a → a = b := by
  intro a b h1 h2
  unfold sLE strLe at h1 h2
  rw [Bool.not_eq_true'] at h1 h2
  exact strLt_total_eq a b h2 h1

theorem sortStr_sorted (l : List Str) : List.Sorted sLE (sortStr l) := by
  haveI : IsTotal Str sLE := ⟨sLE_total⟩
  haveI : IsTrans Str sLE := ⟨sLE_trans⟩
  exact List.sorted_insertionSort sLE l

theorem sortStr_perm (l : List Str) : (sortStr l).Perm l :=
  List.perm_insertionSort sLE l

theorem sortStr_eq_of_perm {l1 l2 : List Str} (h : l1.Perm l2) :
    sortStr l1 = sortStr l2 := by
  haveI : IsAntisymm Str sLE := ⟨sLE_antisymm⟩
  exact List.eq_of_perm_of_sorted
    ((sortStr_perm l1).trans (h.trans (sortStr_perm l2).symm))
    (sortStr_sorted l1) (sortStr_sorted l2)

/-! Helper lemmas: the loop of `get_dependencies` as four `filterMap`s. -/

theorem Groups.get_add (g : Groups) (c2 c : Cat) (s : Str) :
    (g.add c2 s).get c = if c2 = c then g.get c ++ [s] else g.get c := by
  cases c2 <;> cases c <;> simp [Groups.add, Groups.get]

theorem processLine_get (g : Groups) (line : Str) (c : Cat) :
    (processLine g line).get c = g.get c ++ (emitOpt c line).toList := by
  unfold processLine emitOpt
  cases h : route line with
  | none => simp
  | some p =>
    obtain ⟨c2, s⟩ := p
    rw [Groups.get_add]
    by_cases hc : c2 = c
    · simp [hc]
    · simp [hc]

theorem foldl_processLine_get :
    ∀ (lines : List Str) (g : Groups) (c : Cat),
      (lines.foldl processLine g).get c = g.get c ++ lines.filterMap (emitOpt c)
  | [], g, c => by simp
  | l :: ls, g, c => by
    simp only [List.foldl_cons, List.filterMap_cons]
    rw [foldl_processLine_get ls (processLine g l) c, processLine_get]
    cases h : emitOpt c l <;> simp [h]

theorem get_dependencies_eq (stdout : Str) :
    get_dependencies stdout =
      joinWith "\n".data
        (sortStr (groupLines Cat.standard stdout) ++
          sortStr (groupLines Cat.torch stdout) ++
          sortStr (groupLines Cat.nodeps stdout) ++
          sortStr (groupLines Cat.nocache stdout)) := by
  have hs := foldl_processLine_get (pySplitlines stdout) Groups.empty Cat.standard
  have ht := foldl_processLine_get (pySplitlines stdout) Groups.empty Cat.torch
  have hd := foldl_processLine_get (pySplitlines stdout) Groups.empty Cat.nodeps
  have hc := foldl_processLine_get (pySplitlines stdout) Groups.empty Cat.nocache
  simp only [Groups.get, show Groups.empty = ⟨[], [], [], []⟩ from rfl,
    List.nil_append] at hs ht hd hc
  simp only [show (⟨[], [], [], []⟩ : Groups) = Groups.empty from rfl] at hs ht hd hc
  simp only [get_dependencies, groupLines]
  rw [hs, ht, hd, hc]

/-- C1: for every input text, the output of `get_dependencies` is the
rewritten lines grouped in the fixed order standard, index-url, no-deps,
no-cache, each group internally sorted lexicographically by its full
rewritten line text, the groups concatenated and joined with newlines and no
trailing newline added. -/
theorem c1_grouped_sorted_output (stdout : Str) :
    ∃ s t d c : List Str,
      s.Perm (groupLines Cat.standard stdout) ∧ List.Sorted sLE s ∧
      t.Perm (groupLines Cat.torch stdout) ∧ List.Sorted sLE t ∧
      d.Perm (groupLines Cat.nodeps stdout) ∧ List.Sorted sLE d ∧
      c.Perm (groupLines Cat.nocache stdout) ∧ List.Sorted sLE c ∧
      get_dependencies stdout = joinWith "\n".data (s ++ t ++ d ++ c) :=
  ⟨_, _, _, _, sortStr_perm _, sortStr_sorted _, sortStr_perm _, sortStr_sorted _,
    sortStr_perm _, sortStr_sorted _, sortStr_perm _, sortStr_sorted _,
    get_dependencies_eq stdout⟩

/-- C2: two input texts whose line lists are permutations of each other give
identical outputs of `get_dependencies`. -/
theorem c2_input_order_irrelevant (t1 t2 : Str)
    (h : (pySplitlines t1).Perm (pySplitlines t2)) :
    get_dependencies t1 = get_dependencies t2 := by
  rw [get_dependencies_eq, get_dependencies_eq]
  have e : ∀ c : Cat, sortStr (groupLines c t1) = sortStr (groupLines c t2) :=
    fun c => sortStr_eq_of_perm (h.filterMap (emitOpt c))
  rw [e Cat.standard, e Cat.torch, e Cat.nodeps, e Cat.nocache]

/-- Witness for C2 at a concrete pair of inputs with swapped lines. -/
theorem c2_input_order_irrelevant_witness :
    (pySplitlines "uv pip install b a\nuv pip install --no-cache x".data).Perm
      (pySplitlines "uv pip install --no-cache x\nuv pip install b a".data) ∧
    get_dependencies "uv pip install b a\nuv pip install --no-cache x".data =
      get_dependencies "uv pip install --no-cache x\nuv pip install b a".data :=
  ⟨by decide, c2_input_order_irrelevant _ _ (by decide)⟩

/-! Helper lemmas: joining and splitting text. -/

theorem joinWith_cons_ne (sep x : Str) {l : List Str} (h : l ≠ []) :
    joinWith sep (x :: l) = x ++ sep ++ joinWith sep l := by
  cases l with
  | nil => exact absurd rfl h
  | cons y t => rfl

theorem splitChMax_ne_nil (c : Char) : ∀ (n : Nat) (s : Str), splitChMax c n s ≠ []
  | 0, s => by simp [splitChMax]
  | n + 1, s => by
    unfold splitChMax
    cases h : breakAtCh c s <;> simp

theorem breakAtCh_eq (c : Char) :
    ∀ {s a b : Str}, breakAtCh c s = some (a, b) → s = a ++ c :: b
  | [], a, b, h => by simp [breakAtCh] at h
  | x :: xs, a, b, h => by
    unfold breakAtCh at h
    by_cases hx : x = c
    · rw [if_pos hx] at h
      simp only [Option.some.injEq, Prod.mk.injEq] at h
      obtain ⟨h1, h2⟩ := h
      rw [← h1, ← h2, hx]
      rfl
    · rw [if_neg hx] at h
      cases h2 : breakAtCh c xs with
      | none =>
        rw [h2] at h
        simp at h
      | some p =>
        obtain ⟨a2, b2⟩ := p
        rw [h2] at h
        simp only [Option.some.injEq, Prod.mk.injEq] at h
        obtain ⟨ha, hb⟩ := h
        rw [← ha, ← hb]
        have := breakAtCh_eq c h2
        rw [List.cons_append, ← this]

theorem joinWith_splitChMax (c : Char) : ∀ (n : Nat) (s : Str),
    joinWith [c] (splitChMax c n s) = s
  | 0, s => rfl
  | n + 1, s => by
    unfold splitChMax
    cases h : breakAtCh c s with
    | none => rfl
    | some p =>
      obtain ⟨a, b⟩ := p
      rw [joinWith_cons_ne _ _ (splitChMax_ne_nil c n b), joinWith_splitChMax c n b,
        breakAtCh_eq c h]
      simp

theorem joinWith_flatten (sep : Str) :
    ∀ (a : List Str) {b : List Str}, b ≠ [] →
      joinWith sep (a ++ [joinWith sep b]) = joinWith sep (a ++ b)
  | [], b, hb => by
    cases b with
    | nil => exact absurd rfl hb
    | cons y t => rfl
  | x :: a, b, hb => by
    have h1 : a ++ [joinWith sep b] ≠ [] := by simp
    have h2 : a ++ b ≠ [] := fun h => hb (List.append_eq_nil.mp h).2
    rw [List.cons_append, joinWith_cons_ne sep x h1, List.cons_append,
      joinWith_cons_ne sep x h2, joinWith_flatten sep a hb]

/-! Helper lemmas: deduplication. -/

theorem mem_dedupRL : ∀ {l : List Str} {t : Str}, t ∈ dedupRL l ↔ t ∈ l := by
  intro l t
  induction l with
  | nil => simp [dedupRL]
  | cons x xs ih =>
    simp only [dedupRL]
    by_cases hx : x ∈ dedupRL xs
    · rw [if_pos hx]
      constructor
      · intro h
        exact List.mem_cons_of_mem x (ih.mp h)
      · intro h
        rcases List.mem_cons.mp h with rfl | h2
        · exact hx
        · exact ih.mpr h2
    · rw [if_neg hx]
      simp [List.mem_cons, ih]

theorem nodup_dedupRL : ∀ l : List Str, (dedupRL l).Nodup := by
  intro l
  induction l with
  | nil => simp [dedupRL]
  | cons x xs ih =>
    simp only [dedupRL]
    by_cases hx : x ∈ dedupRL xs
    · rw [if_pos hx]
      exact ih
    · rw [if_neg hx]
      exact List.nodup_cons.mpr ⟨hx, ih⟩

theorem dedupRL_eq_nil : ∀ {l : List Str}, dedupRL l = [] ↔ l = [] := by
  intro l
  cases l with
  | nil => simp [dedupRL]
  | cons x xs =>
    simp only [dedupRL]
    constructor
    · intro h
      by_cases hx : x ∈ dedupRL xs
      · rw [if_pos hx] at h
        rw [h] at hx
        exact absurd hx (List.not_mem_nil x)
      · rw [if_neg hx] at h
        exact absurd h (List.cons_ne_nil x _)
    · intro h
      exact absurd h (List.cons_ne_nil x xs)

theorem mem_packagesOf {payload t : Str} :
    t ∈ packagesOf payload ↔ t ∈ splitWS payload :=
  (sortStr_perm _).mem_iff.trans mem_dedupRL

theorem nodup_packagesOf (payload : Str) : (packagesOf payload).Nodup :=
  ((sortStr_perm _).nodup_iff).mpr (nodup_dedupRL _)

theorem sorted_packagesOf (payload : Str) : List.Sorted sLE (packagesOf payload) :=
  sortStr_sorted _

theorem countOcc_append {α : Type} [DecidableEq α] (a : α) :
    ∀ l1 l2 : List α, countOcc a (l1 ++ l2) = countOcc a l1 + countOcc a l2
  | [], l2 => by simp [countOcc]
  | x :: l1, l2 => by
    simp only [List.cons_append, countOcc, List.append_eq]
    rw [countOcc_append a l1 l2]
    omega

theorem countOcc_eq_zero {α : Type} [DecidableEq α] {a : α} :
    ∀ {l : List α}, a ∉ l → countOcc a l = 0 := by
  intro l
  induction l with
  | nil => intro _; rfl
  | cons x xs ih =>
    intro h
    simp only [countOcc]
    rw [if_neg, ih (fun m => h (List.mem_cons_of_mem x m))]
    intro e
    apply h
    rw [← e]
    exact List.mem_cons_self x xs

theorem countOcc_eq_one {α : Type} [DecidableEq α] {a : α} :
    ∀ {l : List α}, l.Nodup → a ∈ l → countOcc a l = 1 := by
  intro l
  induction l with
  | nil => intro _ hm; exact absurd hm (List.not_mem_nil a)
  | cons x xs ih =>
    intro hd hm
    obtain ⟨hx, hd2⟩ := List.nodup_cons.mp hd
    simp only [countOcc]
    rcases List.mem_cons.mp hm with rfl | h2
    · rw [if_pos rfl, countOcc_eq_zero hx]
    · rw [if_neg, ih hd2 h2]
      intro e
      apply hx
      rw [e]
      exact h2

theorem packagesOf_eq_nil {payload : Str} :
    packagesOf payload = [] ↔ splitWS payload = [] := by
  constructor
  · intro h
    have hp := sortStr_perm (dedupRL (splitWS payload))
    unfold packagesOf at h
    rw [h] at hp
    exact dedupRL_eq_nil.mp (hp.symm.eq_nil)
  · intro h
    simp [packagesOf, h, dedupRL, sortStr, List.insertionSort]

/-- C6: in the package computation of the transformer, a payload token that
occurs several times after whitespace splitting is emitted exactly once, and
two tokens are merged only when byte-identical: each distinct token of the
payload occurs exactly once in the emitted package list. -/
theorem c6_tokens_deduplicated (payload t : Str) :
    countOcc t (packagesOf payload) = if t ∈ splitWS payload then 1 else 0 := by
  by_cases h : t ∈ splitWS payload
  · rw [if_pos h]
    exact countOcc_eq_one (nodup_packagesOf payload) (mem_packagesOf.mpr h)
  · rw [if_neg h]
    exact countOcc_eq_zero (fun hm => h (mem_packagesOf.mp hm))

/-- C7 counterexample: a matching line with no payload is not passed through
unchanged — its `uv ` prefix is rewritten to `RUN `. -/
theorem c7_passthrough_counterexample :
    get_dependencies "uv pip install".data = "RUN pip install".data ∧
    "RUN pip install".data ≠ "uv pip install".data :=
  ⟨by decide, by decide⟩

/-- C7 (amended): a matching line that splits into fewer than four parts is
appended to the Standard group unchanged except that its first occurrence of
`uv ` is rewritten to `RUN `. -/
theorem c7_short_line_passthrough (g : Groups) (line : Str)
    (hmatch : ("uv pip".data).isPrefixOf (pyStrip line) = true)
    (hshort : (splitChMax ' ' 3 (replaceFirst "uv ".data "RUN ".data line)).length < 4) :
    processLine g line =
      { g with standard_deps :=
          g.standard_deps ++ [replaceFirst "uv ".data "RUN ".data line] } := by
  have hr : route line = some (Cat.standard,
      joinWith " ".data (splitChMax ' ' 3 (replaceFirst "uv ".data "RUN ".data line))) := by
    unfold route
    rw [if_pos hmatch, if_neg (by omega)]
  rw [show (" ".data : Str) = [' '] from rfl, joinWith_splitChMax] at hr
  unfold processLine
  rw [hr]
  rfl

/-- Witness for the amended C7 at a concrete short line. -/
theorem c7_short_line_passthrough_witness :
    ("uv pip".data).isPrefixOf (pyStrip "uv pip install".data) = true ∧
    (splitChMax ' ' 3 (replaceFirst "uv ".data "RUN ".data "uv pip install".data)).length < 4 ∧
    processLine Groups.empty "uv pip install".data =
      { Groups.empty with standard_deps :=
          Groups.empty.standard_deps ++
            [replaceFirst "uv ".data "RUN ".data "uv pip install".data] } :=
  ⟨by decide, by decide, c7_short_line_passthrough Groups.empty _ (by decide) (by decide)⟩

/-- C5: a matching line with a payload part is classified into exactly one of
the four categories, the one given by checking the original line, in order,
for the index-url, no-deps and no-cache flag substrings with Standard as the
default; the rewritten line is appended to that group and no other group
changes, so no matching line is dropped or duplicated. -/
theorem c5_exactly_one_category (g : Groups) (line : Str)
    (hmatch : ("uv pip".data).isPrefixOf (pyStrip line) = true)
    (h4 : 4 ≤ (splitChMax ' ' 3 (replaceFirst "uv ".data "RUN ".data line)).length) :
    ∃ s : Str, route line = some (specCategory line, s) ∧
      processLine g line = g.add (specCategory line) s ∧
      (processLine g line).get (specCategory line) = g.get (specCategory line) ++ [s] ∧
      ∀ c : Cat, c ≠ specCategory line → (processLine g line).get c = g.get c := by
  have hr : ∃ s, route line = some (specCategory line, s) := by
    unfold route specCategory
    rw [if_pos hmatch, if_pos h4]
    by_cases h1 : containsSub "--index-url".data line = true
    · rw [if_pos h1, if_pos h1]
      exact ⟨_, rfl⟩
    · rw [if_neg h1, if_neg h1]
      by_cases h2 : containsSub "--no-deps".data line = true
      · rw [if_pos h2, if_pos h2]
        exact ⟨_, rfl⟩
      · rw [if_neg h2, if_neg h2]
        by_cases h3 : containsSub "--no-cache".data line = true
        · rw [if_pos h3, if_pos h3]
          exact ⟨_, rfl⟩
        · rw [if_neg h3, if_neg h3]
          exact ⟨_, rfl⟩
  obtain ⟨s, hs⟩ := hr
  have hp : processLine g line = g.add (specCategory line) s := by
    unfold processLine
    rw [hs]
  refine ⟨s, hs, hp, ?_, ?_⟩
  · rw [hp, Groups.get_add, if_pos rfl]
  · intro c hc
    rw [hp, Groups.get_add, if_neg (fun h => hc h.symm)]

/-- Witness for C5 at a concrete matching line. -/
theorem c5_exactly_one_category_witness :
    ("uv pip".data).isPrefixOf (pyStrip "uv pip install foo".data) = true ∧
    4 ≤ (splitChMax ' ' 3
        (replaceFirst "uv ".data "RUN ".data "uv pip install foo".data)).length ∧
    ∃ s : Str,
      route "uv pip install foo".data =
        some (specCategory "uv pip install foo".data, s) ∧
      processLine Groups.empty "uv pip install foo".data =
        Groups.empty.add (specCategory "uv pip install foo".data) s ∧
      (processLine Groups.empty "uv pip install foo".data).get
          (specCategory "uv pip install foo".data) =
        Groups.empty.get (specCategory "uv pip install foo".data) ++ [s] ∧
      ∀ c : Cat, c ≠ specCategory "uv pip install foo".data →
        (processLine Groups.empty "uv pip install foo".data).get c =
          Groups.empty.get c :=
  ⟨by decide, by decide,
    c5_exactly_one_category Groups.empty _ (by decide) (by decide)⟩

/-- C10: in the single-line rewrites for the index-url, no-deps and no-cache
categories, flag tokens are not kept in place: the emitted text is exactly
the three command tokens followed by all distinct payload tokens — flags and
package specifiers alike — in lexicographic order, space-joined. -/
theorem c10_flags_sorted_with_packages (line : Str) (c : Cat) (s : Str)
    (hroute : route line = some (c, s))
    (hc : c ≠ Cat.standard)
    (hnp : splitWS ((splitChMax ' ' 3
        (replaceFirst "uv ".data "RUN ".data line)).getD 3 []) ≠ []) :
    ∃ pkgs : List Str,
      s = joinWith " ".data
          ((splitChMax ' ' 3 (replaceFirst "uv ".data "RUN ".data line)).take 3 ++ pkgs) ∧
      List.Sorted sLE pkgs ∧ pkgs.Nodup ∧
      ∀ t : Str, t ∈ pkgs ↔
        t ∈ splitWS ((splitChMax ' ' 3
            (replaceFirst "uv ".data "RUN ".data line)).getD 3 []) := by
  have hpk : packagesOf ((splitChMax ' ' 3
      (replaceFirst "uv ".data "RUN ".data line)).getD 3 []) ≠ [] :=
    fun h => hnp (packagesOf_eq_nil.mp h)
  refine ⟨packagesOf ((splitChMax ' ' 3
      (replaceFirst "uv ".data "RUN ".data line)).getD 3 []), ?_,
    sorted_packagesOf _, nodup_packagesOf _, fun t => mem_packagesOf⟩
  unfold route at hroute
  by_cases hm : ("uv pip".data).isPrefixOf (pyStrip line) = true
  · rw [if_pos hm] at hroute
    by_cases h4 : 4 ≤ (splitChMax ' ' 3 (replaceFirst "uv ".data "RUN ".data line)).length
    · rw [if_pos h4] at hroute
      by_cases hi : containsSub "--index-url".data line = true
      · rw [if_pos hi] at hroute
        simp only [Option.some.injEq, Prod.mk.injEq] at hroute
        obtain ⟨_, hsEq⟩ := hroute
        rw [← hsEq]
        exact joinWith_flatten " ".data _ hpk
      · rw [if_neg hi] at hroute
        by_cases hd : containsSub "--no-deps".data line = true
        · rw [if_pos hd] at hroute
          simp only [Option.some.injEq, Prod.mk.injEq] at hroute
          obtain ⟨_, hsEq⟩ := hroute
          rw [← hsEq]
          exact joinWith_flatten " ".data _ hpk
        · rw [if_neg hd] at hroute
          by_cases hc2 : containsSub "--no-cache".data line = true
          · rw [if_pos hc2] at hroute
            simp only [Option.some.injEq, Prod.mk.injEq] at hroute
            obtain ⟨_, hsEq⟩ := hroute
            rw [← hsEq]
            exact joinWith_flatten " ".data _ hpk
          · rw [if_neg hc2] at hroute
            simp only [Option.some.injEq, Prod.mk.injEq] at hroute
            obtain ⟨hcat, _⟩ := hroute
            exact absurd hcat.symm hc
    · rw [if_neg h4] at hroute
      simp only [Option.some.injEq, Prod.mk.injEq] at hroute
      obtain ⟨hcat, _⟩ := hroute
      exact absurd hcat.symm hc
  · rw [if_neg hm] at hroute
    exact absurd hroute (by simp)

/-- Witness for C10 at a concrete no-deps line. -/
theorem c10_flags_sorted_with_packages_witness :
    route "uv pip install --no-deps b a".data =
      some (Cat.nodeps, "RUN pip install --no-deps a b".data) ∧
    Cat.nodeps ≠ Cat.standard ∧
    splitWS ((splitChMax ' ' 3 (replaceFirst "uv ".data "RUN ".data
        "uv pip install --no-deps b a".data)).getD 3 []) ≠ [] ∧
    ∃ pkgs : List Str,
      "RUN pip install --no-deps a b".data = joinWith " ".data
          ((splitChMax ' ' 3 (replaceFirst "uv ".data "RUN ".data
              "uv pip install --no-deps b a".data)).take 3 ++ pkgs) ∧
      List.Sorted sLE pkgs ∧ pkgs.Nodup ∧
      ∀ t : Str, t ∈ pkgs ↔
        t ∈ splitWS ((splitChMax ' ' 3 (replaceFirst "uv ".data "RUN ".data
            "uv pip install --no-deps b a".data)).getD 3 []) :=
  ⟨by decide, by decide, by decide,
    c10_flags_sorted_with_packages _ Cat.nodeps _ (by decide) (by decide) (by decide)⟩

/-! Helper lemmas: characters of split and rewritten text come from the
source text, and newline counts of joined text. -/

theorem mem_replaceFirst (old new : Str) :
    ∀ {s : Str} {ch : Char}, ch ∈ replaceFirst old new s → ch ∈ new ∨ ch ∈ s
  | [], ch, h => by simp [replaceFirst] at h
  | x :: xs, ch, h => by
    unfold replaceFirst at h
    by_cases hp : old.isPrefixOf (x :: xs) = true
    · rw [if_pos hp] at h
      rcases List.mem_append.mp h with h1 | h2
      · exact Or.inl h1
      · exact Or.inr (List.drop_subset _ _ h2)
    · rw [if_neg hp] at h
      rcases List.mem_cons.mp h with rfl | h2
      · exact Or.inr (List.mem_cons_self _ _)
      · rcases mem_replaceFirst old new h2 with h3 | h3
        · exact Or.inl h3
        · exact Or.inr (List.mem_cons_of_mem x h3)

theorem mem_splitChMax (c : Char) :
    ∀ (n : Nat) (s t : Str), t ∈ splitChMax c n s → ∀ ch ∈ t, ch ∈ s := by
  intro n
  induction n with
  | zero =>
    intro s t ht ch h
    simp only [splitChMax, List.mem_singleton] at ht
    subst ht
    exact h
  | succ n ih =>
    intro s t ht ch h
    unfold splitChMax at ht
    cases hb : breakAtCh c s with
    | none =>
      rw [hb] at ht
      simp only [List.mem_singleton] at ht
      subst ht
      exact h
    | some p =>
      obtain ⟨a, b⟩ := p
      rw [hb] at ht
      have hs := breakAtCh_eq c hb
      rcases List.mem_cons.mp ht with rfl | ht2
      · rw [hs]
        exact List.mem_append.mpr (Or.inl h)
      · rw [hs]
        exact List.mem_append.mpr
          (Or.inr (List.mem_cons_of_mem c (ih b t ht2 ch h)))

theorem mem_splitWSAux :
    ∀ (s acc t : Str), t ∈ splitWSAux acc s → ∀ ch ∈ t, ch ∈ acc ∨ ch ∈ s := by
  intro s
  induction s with
  | nil =>
    intro acc t ht ch h
    unfold splitWSAux at ht
    by_cases ha : acc.isEmpty = true
    · rw [if_pos ha] at ht
      exact absurd ht (List.not_mem_nil t)
    · rw [if_neg ha] at ht
      simp only [List.mem_singleton] at ht
      subst ht
      exact Or.inl (List.mem_reverse.mp h)
  | cons c0 rest ih =>
    intro acc t ht ch h
    unfold splitWSAux at ht
    by_cases hsp : pyIsSpace c0 = true
    · rw [if_pos hsp] at ht
      by_cases ha : acc.isEmpty = true
      · rw [if_pos ha] at ht
        rcases ih [] t ht ch h with h1 | h1
        · exact absurd h1 (List.not_mem_nil ch)
        · exact Or.inr (List.mem_cons_of_mem c0 h1)
      · rw [if_neg ha] at ht
        rcases List.mem_cons.mp ht with rfl | ht2
        · exact Or.inl (List.mem_reverse.mp h)
        · rcases ih [] t ht2 ch h with h1 | h1
          · exact absurd h1 (List.not_mem_nil ch)
          · exact Or.inr (List.mem_cons_of_mem c0 h1)
    · rw [if_neg hsp] at ht
      rcases ih (c0 :: acc) t ht ch h with h1 | h1
      · rcases List.mem_cons.mp h1 with he | h2
        · rw [he]
          exact Or.inr (List.mem_cons_self c0 rest)
        · exact Or.inl h2
      · exact Or.inr (List.mem_cons_of_mem c0 h1)

theorem mem_splitWS {s t : Str} (ht : t ∈ splitWS s) {ch : Char} (h : ch ∈ t) :
    ch ∈ s :=
  (mem_splitWSAux s [] t ht ch h).resolve_left (List.not_mem_nil ch)

theorem notMem_joinWith (sep : Str) (ch : Char) (hsep : ch ∉ sep) :
    ∀ l : List Str, (∀ t ∈ l, ch ∉ t) → ch ∉ joinWith sep l
  | [], _ => by simp [joinWith]
  | [x], h => by
    simp only [joinWith]
    exact h x (by simp)
  | x :: y :: rest, h => by
    rw [joinWith_cons_ne sep x (List.cons_ne_nil y rest)]
    intro hm
    rcases List.mem_append.mp hm with h1 | h1
    · rcases List.mem_append.mp h1 with h2 | h2
      · exact h x (by simp) h2
      · exact hsep h2
    · exact notMem_joinWith sep ch hsep (y :: rest)
        (fun t htm => h t (List.mem_cons_of_mem x htm)) h1

theorem countOcc_joinWith (sep : Str) (ch : Char) :
    ∀ l : List Str, (∀ t ∈ l, ch ∉ t) → l ≠ [] →
      countOcc ch (joinWith sep l) = (l.length - 1) * countOcc ch sep
  | [], _, hne => absurd rfl hne
  | [x], h, _ => by
    simp only [joinWith, List.length_singleton]
    rw [countOcc_eq_zero (h x (by simp))]
    simp
  | x :: y :: rest, h, _ => by
    rw [joinWith_cons_ne sep x (List.cons_ne_nil y rest), countOcc_append,
      countOcc_append,
      countOcc_joinWith sep ch (y :: rest)
        (fun t htm => h t (List.mem_cons_of_mem x htm)) (List.cons_ne_nil y rest),
      countOcc_eq_zero (h x (by simp))]
    simp only [List.length_cons, Nat.add_sub_cancel]
    rw [Nat.succ_mul]
    omega

/-- C4 counterexample: a Standard line with two distinct payload tokens is
rewritten with two embedded line breaks, not exactly one. -/
theorem c4_single_break_counterexample :
    get_dependencies "uv pip install b a".data =
      "RUN pip install \\\n    a \\\n    b".data ∧
    countOcc '\n' (get_dependencies "uv pip install b a".data) = 2 :=
  ⟨by decide, by decide⟩

/-- C4 (amended): a newline-free matching line routed to Standard with a
nonempty payload is rewritten with exactly one embedded line break per
distinct payload token — one before the package list and one before each
further package — hence at least one. -/
theorem c4_standard_breaks (line out : Str)
    (hn : '\n' ∉ line)
    (hroute : route line = some (Cat.standard, out))
    (h4 : 4 ≤ (splitChMax ' ' 3 (replaceFirst "uv ".data "RUN ".data line)).length)
    (hnp : splitWS ((splitChMax ' ' 3
        (replaceFirst "uv ".data "RUN ".data line)).getD 3 []) ≠ []) :
    countOcc '\n' out =
      (packagesOf ((splitChMax ' ' 3
          (replaceFirst "uv ".data "RUN ".data line)).getD 3 [])).length ∧
    1 ≤ countOcc '\n' out := by
  have hline : ∀ t ∈ splitChMax ' ' 3 (replaceFirst "uv ".data "RUN ".data line),
      '\n' ∉ t := by
    intro t ht hmem
    rcases mem_replaceFirst "uv ".data "RUN ".data
        (mem_splitChMax ' ' 3 _ t ht _ hmem) with h1 | h1
    · exact absurd h1 (by decide)
    · exact hn h1
  have hcmd : ∀ t ∈ (splitChMax ' ' 3
      (replaceFirst "uv ".data "RUN ".data line)).take 3, '\n' ∉ t :=
    fun t ht => hline t (List.take_subset 3 _ ht)
  have hpayload : '\n' ∉ (splitChMax ' ' 3
      (replaceFirst "uv ".data "RUN ".data line)).getD 3 [] := by
    have h3 : 3 < (splitChMax ' ' 3
        (replaceFirst "uv ".data "RUN ".data line)).length := by omega
    rw [List.getD_eq_getElem _ _ h3]
    exact hline _ (List.getElem_mem h3)
  have hpkgs : ∀ t ∈ packagesOf ((splitChMax ' ' 3
      (replaceFirst "uv ".data "RUN ".data line)).getD 3 []), '\n' ∉ t := by
    intro t ht hm
    exact hpayload (mem_splitWS (mem_packagesOf.mp ht) hm)
  have hpkne : packagesOf ((splitChMax ' ' 3
      (replaceFirst "uv ".data "RUN ".data line)).getD 3 []) ≠ [] :=
    fun e => hnp (packagesOf_eq_nil.mp e)
  have hout : out = joinWith " ".data ((splitChMax ' ' 3
      (replaceFirst "uv ".data "RUN ".data line)).take 3) ++ " \\\n    ".data ++
      joinWith " \\\n    ".data (packagesOf ((splitChMax ' ' 3
        (replaceFirst "uv ".data "RUN ".data line)).getD 3 [])) := by
    unfold route at hroute
    by_cases hm : ("uv pip".data).isPrefixOf (pyStrip line) = true
    · rw [if_pos hm, if_pos h4] at hroute
      by_cases hi : containsSub "--index-url".data line = true
      · rw [if_pos hi] at hroute
        simp at hroute
      · rw [if_neg hi] at hroute
        by_cases hd : containsSub "--no-deps".data line = true
        · rw [if_pos hd] at hroute
          simp at hroute
        · rw [if_neg hd] at hroute
          by_cases hc2 : containsSub "--no-cache".data line = true
          · rw [if_pos hc2] at hroute
            simp at hroute
          · rw [if_neg hc2] at hroute
            simp only [Option.some.injEq, Prod.mk.injEq] at hroute
            exact hroute.2.symm
    · rw [if_neg hm] at hroute
      exact absurd hroute (by simp)
  have hA : countOcc '\n' (joinWith " ".data ((splitChMax ' ' 3
      (replaceFirst "uv ".data "RUN ".data line)).take 3)) = 0 :=
    countOcc_eq_zero (notMem_joinWith " ".data '\n' (by decide) _ hcmd)
  have hB : countOcc '\n' " \\\n    ".data = 1 := by decide
  have hC := countOcc_joinWith " \\\n    ".data '\n' _ hpkgs hpkne
  have hlen : 1 ≤ (packagesOf ((splitChMax ' ' 3
      (replaceFirst "uv ".data "RUN ".data line)).getD 3 [])).length :=
    List.length_pos.mpr hpkne
  rw [hout, countOcc_append, countOcc_append, hA, hB, hC, hB]
  omega

/-- Witness for the amended C4 at a concrete one-package line. -/
theorem c4_standard_breaks_witness :
    '\n' ∉ "uv pip install a".data ∧
    route "uv pip install a".data =
      some (Cat.standard, "RUN pip install \\\n    a".data) ∧
    4 ≤ (splitChMax ' ' 3
        (replaceFirst "uv ".data "RUN ".data "uv pip install a".data)).length ∧
    splitWS ((splitChMax ' ' 3
        (replaceFirst "uv ".data "RUN ".data "uv pip install a".data)).getD 3 []) ≠ [] ∧
    (countOcc '\n' "RUN pip install \\\n    a".data =
        (packagesOf ((splitChMax ' ' 3 (replaceFirst "uv ".data "RUN ".data
            "uv pip install a".data)).getD 3 [])).length ∧
      1 ≤ countOcc '\n' "RUN pip install \\\n    a".data) :=
  ⟨by decide, by decide, by decide, by decide,
    c4_standard_breaks _ _ (by decide) (by decide) (by decide) (by decide)⟩

/-- C3: evidence that the code contradicts the claimed (and repo-tested)
behaviour — for the line `uv pip install --no-deps 'llama-stack-client==1.2.3'`
the payload is sorted together with the flag, the quote character (0x27)
sorting before the hyphen (0x2d), so the output places the specifier before
`--no-deps` and never contains `--no-deps 'llama-stack-client==1.2.3'`. -/
theorem c3_nodeps_flag_reordered :
    get_dependencies
        "uv pip install --no-deps \x27llama-stack-client==1.2.3\x27".data =
      "RUN pip install \x27llama-stack-client==1.2.3\x27 --no-deps".data ∧
    containsSub "--no-deps \x27llama-stack-client==1.2.3\x27".data
        (get_dependencies
          "uv pip install --no-deps \x27llama-stack-client==1.2.3\x27".data) =
      false :=
  ⟨by decide, by decide⟩

/-- C8: when no input line matches the install prefix, `get_dependencies`
returns the empty string, and `generate_containerfile` still succeeds on it,
producing the warning banner plus the template with an empty placeholder
region. -/
theorem c8_empty_input (stdout tmplBefore tmplAfter : Str)
    (standalone unified : Bool)
    (h : ∀ l ∈ pySplitlines stdout,
      ("uv pip".data).isPrefixOf (pyStrip l) = false) :
    get_dependencies stdout = [] ∧
    generate_containerfile tmplBefore tmplAfter (get_dependencies stdout)
        standalone unified =
      warningOf standalone unified ++ tmplBefore ++ tmplAfter := by
  have hempty : get_dependencies stdout = [] := by
    have hgroup : ∀ c : Cat, groupLines c stdout = [] := by
      intro c
      unfold groupLines
      rw [List.filterMap_eq_nil_iff]
      intro l hl
      unfold emitOpt route
      rw [if_neg (by simp [h l hl])]
    rw [get_dependencies_eq, hgroup Cat.standard, hgroup Cat.torch,
      hgroup Cat.nodeps, hgroup Cat.nocache]
    rfl
  refine ⟨hempty, ?_⟩
  rw [hempty]
  unfold generate_containerfile pyRstrip
  simp

/-- Witness for C8 at a concrete input with no matching line. -/
theorem c8_empty_input_witness :
    (∀ l ∈ pySplitlines "hello\nworld".data,
      ("uv pip".data).isPrefixOf (pyStrip l) = false) ∧
    (get_dependencies "hello\nworld".data = [] ∧
      generate_containerfile "FROM base\n".data "\nCMD run\n".data
          (get_dependencies "hello\nworld".data) false true =
        warningOf false true ++ "FROM base\n".data ++ "\nCMD run\n".data) :=
  ⟨by decide, c8_empty_input _ _ _ false true (by decide)⟩

/-- C9: `check_llama_stack_version` exits with nonzero status exactly when
the version subprocess succeeds and its stripped stdout differs from the
version pinned in `BASE_REQUIREMENTS` (0.2.18); when the subprocess itself
fails, it only warns and the run continues. -/
theorem c9_version_check_gate :
    (∀ r : RunOutcome,
        check_llama_stack_version r = CheckResult.exited 1 ↔
          ∃ out : Str, r = RunOutcome.ok out ∧ pyStrip out ≠ "0.2.18".data) ∧
    check_llama_stack_version RunOutcome.failed = CheckResult.warned := by
  constructor
  · intro r
    cases r with
    | failed =>
      simp [check_llama_stack_version]
    | ok out =>
      have he : expectedVersionOf BASE_REQUIREMENTS = some "0.2.18".data := by
        decide
      simp only [check_llama_stack_version, he]
      by_cases h : pyStrip out = "0.2.18".data
      · rw [if_neg (by simp [h])]
        simp [h]
      · rw [if_pos ⟨by decide, h⟩]
        simp [h]
  · rfl
